import Mathlib

/-!
Shallow embedding of the GXK Structure Calculator core (calculator module):
`parseRequirement`, `formatTime`, `calculateResourcesRecursive` and
`buildDependencyTree`, together with theorems checking the repository's
specification against this embedding.

Modelling conventions:
* JavaScript numbers are modelled as exact rationals (`ℚ`); levels are `Nat`.
* JavaScript objects used as string-keyed maps are association lists that
  preserve insertion order (new keys are appended at the end, updates keep
  the original position), matching JS enumeration order for the non-numeric
  keys used here (structure and resource names).
* The JS `Set` of visited dependency keys is a `List String` threaded
  explicitly through the recursion: the aggregator returns the updated set
  (the JS set is shared by reference), while the tree builder passes the
  set along unchanged (the JS code copies it and never reads it).
* The unbounded JS recursion is modelled with an explicit `fuel` argument;
  exhausting fuel yields `none`, so `some` results correspond exactly to the
  terminating executions of the JS code.
* The aggregator additionally returns a ghost trace listing every
  (dependency name, level) pair appended to any `dependencies` list anywhere
  in the recursive expansion (the JS code discards nested lists after
  folding their costs); the trace is needed to state the deduplication
  claims and does not influence any computed field.
-/

/-- Resource cost map: JS object keyed by resource name. -/
abbrev Costs := List (String × ℚ)

/-- Map from structure name to current level (the `currentLevels` object). -/
abbrev LevelMap := List (String × Nat)

/-- Per-level data of a structure: `costs`, `upgrade_time`, `requirements`.
A field absent in the JSON is the empty map / `0` / the empty list, which is
observationally equal to the JS falsy-field checks. -/
structure LevelData where
  costs : Costs
  upgrade_time : ℚ
  requirements : List String
deriving DecidableEq, Repr

/-- A structure definition: mapping from level number to its `LevelData`. -/
structure StructureDef where
  levels : List (Nat × LevelData)
deriving DecidableEq, Repr

/-- The structures database: mapping from structure name to its definition. -/
abbrev DB := List (String × StructureDef)

/-- Association-list lookup (JS property access `obj[key]`). -/
def alookup {α β : Type} [DecidableEq α] : List (α × β) → α → Option β
  | [], _ => none
  | (a, b) :: t, k => if a = k then some b else alookup t k

/-- `m[r] || 0` for a cost map: missing key counts as zero. -/
def getRes (m : Costs) (r : String) : ℚ :=
  match alookup m r with
  | some v => v
  | none => 0

/-- `currentLevels[s] || 1`: absent (or falsy `0`) entry means level 1. -/
def currentLevelOf (lvls : LevelMap) (s : String) : Nat :=
  match alookup lvls s with
  | some v => if v = 0 then 1 else v
  | none => 1

/-- `m[r] = (m[r] || 0) + a`: add into a cost map, keeping the position of an
existing key and appending a new key at the end (JS object semantics). -/
def addCost (m : Costs) (r : String) (a : ℚ) : Costs :=
  match m with
  | [] => [(r, a)]
  | (k, v) :: t => if k = r then (k, v + a) :: t else (k, v) :: addCost t r a

/-- Fold one cost map into another entry by entry
(`for ([resource, amount] of Object.entries(src)) dst[resource] += amount`). -/
def foldCosts (dst src : Costs) : Costs :=
  src.foldl (fun m p => addCost m p.1 p.2) dst

/-! ## Requirement parser

JS: `requirement.match(/Level (\d+)\s+(.+)/)`.  The regex is unanchored: the
engine tries each start position from the left; `(\d+)` is the maximal digit
run (no backtracking can help it), `\s+` is greedy over JS whitespace but
backtracks from the right when `(.+)` would otherwise be empty, and `(.+)`
greedily captures characters other than line terminators. -/

/-- JS regex `\d`. -/
def isDigitChar (c : Char) : Bool := '0' ≤ c && c ≤ '9'

/-- JS regex `\s` (the ECMAScript WhiteSpace and LineTerminator sets). -/
def jsWhitespace (c : Char) : Bool :=
  c.toNat = 0x20 || c.toNat = 0x9 || c.toNat = 0xa || c.toNat = 0xd ||
  c.toNat = 0xb || c.toNat = 0xc ||
  c.toNat = 0xa0 || c.toNat = 0x1680 || (0x2000 <= c.toNat && c.toNat <= 0x200a) ||
  c.toNat = 0x2028 || c.toNat = 0x2029 || c.toNat = 0x202f || c.toNat = 0x205f ||
  c.toNat = 0x3000 || c.toNat = 0xfeff

/-- JS regex `.` (without the `s` flag): any character except a line
terminator. -/
def jsDot (c : Char) : Bool :=
  !(c.toNat = 0xa || c.toNat = 0xd || c.toNat = 0x2028 || c.toNat = 0x2029)

/-- Numeric value of a digit string (`parseInt` on the `(\d+)` capture). -/
def natOfDigits (ds : List Char) : Nat :=
  ds.foldl (fun n c => n * 10 + (c.toNat - '0'.toNat)) 0

/-- Match a literal character sequence at the head of the input, returning
the rest on success. -/
def stripChars : List Char → List Char → Option (List Char)
  | [], cs => some cs
  | _ :: _, [] => none
  | p :: ps, c :: cs => if c = p then stripChars ps cs else none

/-- Backtracking of the greedy `\s+` when `(.+)` ran out of input: split the
whitespace run `w` as `w₁ ++ w₂` with both parts nonempty, preferring the
longest `w₁`, and return the `(.+)` capture taken from `w₂` when its first
character is not a line terminator. -/
def pickBack : List Char → Option (List Char)
  | [] => none
  | [_] => none
  | _ :: rest =>
    match pickBack rest with
    | some cap => some cap
    | none =>
      match rest with
      | [] => none
      | d :: _ => if jsDot d then some (rest.takeWhile jsDot) else none

/-- Attempt the regex `Level (\d+)\s+(.+)` at the current position, returning
(level value, structure-name capture). -/
def matchAt (cs : List Char) : Option (Nat × String) :=
  match stripChars "Level ".data cs with
  | none => none
  | some rest =>
    let ds := rest.takeWhile isDigitChar
    if ds = [] then none
    else
      let after := rest.dropWhile isDigitChar
      let w := after.takeWhile jsWhitespace
      let t := after.dropWhile jsWhitespace
      if w = [] then none
      else if t = [] then
        match pickBack w with
        | some cap => some (natOfDigits ds, String.mk cap)
        | none => none
      else some (natOfDigits ds, String.mk (t.takeWhile jsDot))

/-- Leftmost unanchored regex search: try every start position from the left
(`String.prototype.match` without the global flag). -/
def findMatch : List Char → Option (Nat × String)
  | [] => none
  | c :: cs =>
    match matchAt (c :: cs) with
    | some r => some r
    | none => findMatch cs

/-- Parsed requirement `{ structure: match[2], level: parseInt(match[1]) }`. -/
structure Req where
  struct : String
  level : Nat
deriving DecidableEq, Repr

/-- `parseRequirement(requirement)`: match against `/Level (\d+)\s+(.+)/`,
returning the structure name and required level, or `none` when the regex
does not match. -/
def parseRequirement (requirement : String) : Option Req :=
  match findMatch requirement.data with
  | some (n, name) => some ⟨name, n⟩
  | none => none

/-! ## Time formatter -/

/-- JS `a % b` for the non-negative operands `formatTime` uses. -/
def fmod (a b : ℚ) : ℚ := a - b * ⌊a / b⌋

/-- `formatTime(seconds)`: decompose into days/hours/minutes/seconds with
`Math.floor` and join the parts pushed by the source. -/
def formatTime (seconds : ℚ) : String :=
  let days : ℤ := ⌊seconds / 86400⌋
  let hours : ℤ := ⌊fmod seconds 86400 / 3600⌋
  let minutes : ℤ := ⌊fmod seconds 3600 / 60⌋
  let secs : ℤ := ⌊fmod seconds 60⌋
  let parts : List String :=
    (if days > 0 then [toString days ++ "d"] else []) ++
    (if hours > 0 then [toString hours ++ "h"] else []) ++
    (if minutes > 0 then [toString minutes ++ "m"] else []) ++
    (if secs > 0 ∧ days = 0 ∧ hours = 0 then [toString secs ++ "s"] else [])
  if parts.length > 0 then String.intercalate " " parts else "0s"

/-- Modelled from the spec: the time-format contract of §4.2 — decompose
into days/hours/minutes/seconds by integer division (86400, 3600, 60),
join the non-zero components in descending unit order, show seconds only
when both days and hours are zero, and return "0s" when every component is
zero. -/
def formatTimeSpec (seconds : ℚ) : String :=
  let days : ℤ := ⌊seconds / 86400⌋
  let hours : ℤ := ⌊fmod seconds 86400 / 3600⌋
  let minutes : ℤ := ⌊fmod seconds 3600 / 60⌋
  let secs : ℤ := ⌊fmod seconds 60⌋
  let units : List (ℤ × String) := [(days, "d"), (hours, "h"), (minutes, "m")]
  let comps := (units.filter (fun u => 0 < u.1)).map (fun u => toString u.1 ++ u.2)
  let comps := comps ++
    (if 0 < secs ∧ days = 0 ∧ hours = 0 then [toString secs ++ "s"] else [])
  if comps = [] then "0s" else String.intercalate " " comps

/-! ## Resource/time aggregator (`calculateResourcesRecursive`)

The JS function takes
`(structure, targetLevel, currentLevel = null, constructionSpeedBonus = 0,
structuresData = {}, currentLevels = {}, visited = new Set(), visitedLevels = {})`.
The `visitedLevels` object is accepted and passed along but never read or
written, so it is omitted here.  The embedding returns
`(result, visited', trace)`: the JS result object, the visited set after the
call (the JS set is mutated in place and shared with the caller), and the
ghost trace of all `(name, level)` dependency entries pushed anywhere in the
expansion. -/

/-- One entry of the `dependencies` list:
`{ name, level, resources, time }`. -/
structure DepEntry where
  name : String
  level : Nat
  resources : Costs
  time : ℚ
deriving DecidableEq, Repr

/-- The JS result object of `calculateResourcesRecursive`. -/
structure AggResult where
  individualCosts : Costs
  dependencyCosts : Costs
  totalCosts : Costs
  dependencies : List DepEntry
  individualTimes : ℚ
  dependencyTimes : ℚ
  totalTime : ℚ
deriving DecidableEq, Repr

/-- The freshly initialised result object. -/
def emptyAgg : AggResult :=
  { individualCosts := [], dependencyCosts := [], totalCosts := []
    dependencies := [], individualTimes := 0, dependencyTimes := 0
    totalTime := 0 }

/-- Aggregator output: result, updated visited set, ghost dependency trace. -/
abbrev AggOut := AggResult × List String × List (String × Nat)

/-- The levels strictly above `currentLevel` and up to `targetLevel`, in
ascending order (`for (let lvl = currentLevel + 1; lvl <= targetLevel; lvl++)`). -/
def levelRange (currentLevel targetLevel : Nat) : List Nat :=
  (List.range (targetLevel - currentLevel)).map (fun i => currentLevel + 1 + i)

/-- First pass, inner update: keep the maximum required level seen per
dependency.  JS: `if (!allDependencies[s] || level > allDependencies[s])
allDependencies[s] = level` — a stored falsy `0` is also overwritten. -/
def updateDep (m : List (String × Nat)) (s : String) (l : Nat) : List (String × Nat) :=
  match m with
  | [] => [(s, l)]
  | (k, v) :: t =>
    if k = s then (if v = 0 ∨ l > v then (k, l) :: t else (k, v) :: t)
    else (k, v) :: updateDep t s l

/-- FIRST PASS: collect all dependencies across all levels being upgraded,
retaining for each dependency structure the maximum required level. -/
def collectAllDeps (sd : StructureDef) (currentLevel targetLevel : Nat) :
    List (String × Nat) :=
  (levelRange currentLevel targetLevel).foldl
    (fun m lvl =>
      match alookup sd.levels lvl with
      | none => m
      | some ld =>
        ld.requirements.foldl
          (fun m' req =>
            match parseRequirement req with
            | some p => updateDep m' p.struct p.level
            | none => m')
          m)
    []

/-- SECOND PASS: accumulate the structure's own costs and speed-adjusted
upgrade times over the level range.  `speedMultiplier` is
`constructionSpeedBonus / 100`; a falsy (`0`) `upgrade_time` is skipped. -/
def pass2 (sd : StructureDef) (currentLevel targetLevel : Nat)
    (constructionSpeedBonus : ℚ) : AggResult :=
  (levelRange currentLevel targetLevel).foldl
    (fun res lvl =>
      match alookup sd.levels lvl with
      | none => res
      | some ld =>
        let res1 := ld.costs.foldl
          (fun r p =>
            { r with individualCosts := addCost r.individualCosts p.1 p.2
                     totalCosts := addCost r.totalCosts p.1 p.2 })
          res
        if ld.upgrade_time ≠ 0 then
          let upgradeTime := ld.upgrade_time / (1 + constructionSpeedBonus / 100)
          { res1 with individualTimes := res1.individualTimes + upgradeTime
                      totalTime := res1.totalTime + upgradeTime }
        else res1)
    emptyAgg

/-- The dedup key `` `${depStructure}-${maxLevel}` ``. -/
def depKey (s : String) (l : Nat) : String := s ++ "-" ++ toString l

/-- THIRD PASS: process each discovered dependency once, at its maximum
required level.  `f` is the recursive aggregator call
(`depStructure, maxLevel, depCurrentLevel, visited`); the accumulator
threads the result object, the shared visited set and the ghost trace. -/
def processDeps (f : String → Nat → Nat → List String → Option AggOut)
    (lvls : LevelMap) :
    List (String × Nat) → AggResult → List String → List (String × Nat) →
    Option AggOut
  | [], res, visited, trace => some (res, visited, trace)
  | (depStructure, maxLevel) :: rest, res, visited, trace =>
    let depCurrentLevel := currentLevelOf lvls depStructure
    if maxLevel > depCurrentLevel then
      if depKey depStructure maxLevel ∈ visited then
        processDeps f lvls rest res visited trace
      else
        match f depStructure maxLevel depCurrentLevel
            (depKey depStructure maxLevel :: visited) with
        | none => none
        | some (depResult, visited', depTrace) =>
          let res' :=
            { res with
              dependencyCosts := foldCosts res.dependencyCosts depResult.totalCosts
              totalCosts := foldCosts res.totalCosts depResult.totalCosts
              dependencyTimes := res.dependencyTimes + depResult.totalTime
              totalTime := res.totalTime + depResult.totalTime
              dependencies := res.dependencies ++
                [{ name := depStructure, level := maxLevel
                   resources := depResult.totalCosts
                   time := depResult.totalTime }] }
          processDeps f lvls rest res' visited'
            (trace ++ depTrace ++ [(depStructure, maxLevel)])
    else
      processDeps f lvls rest res visited trace

/-- `calculateResourcesRecursive`, fuel-indexed.  A `none` current level is
the JS `null` default, resolved from `currentLevels` (`|| 1`). -/
def calculateResourcesRecursive :
    Nat → String → Nat → Option Nat → ℚ → DB → LevelMap → List String →
    Option AggOut
  | 0, _, _, _, _, _, _, _ => none
  | fuel + 1, structureName, targetLevel, currentLevelArg,
      constructionSpeedBonus, structuresData, currentLevels, visited =>
    let currentLevel :=
      match currentLevelArg with
      | some c => c
      | none => currentLevelOf currentLevels structureName
    match alookup structuresData structureName with
    | none => some (emptyAgg, visited, [])
    | some sd =>
      if targetLevel ≤ currentLevel then some (emptyAgg, visited, [])
      else
        processDeps
          (fun s t c v =>
            calculateResourcesRecursive fuel s t (some c)
              constructionSpeedBonus structuresData currentLevels v)
          currentLevels
          (collectAllDeps sd currentLevel targetLevel)
          (pass2 sd currentLevel targetLevel constructionSpeedBonus)
          visited
          []

/-! ## Dependency tree builder (`buildDependencyTree`) -/

/-- A node of the dependency tree:
`{ structure, currentLevel, targetLevel, costs, time, children }`. -/
inductive DepTree where
  | node (struct : String) (currentLevel targetLevel : Nat)
      (costs : Costs) (time : ℚ) (children : List DepTree) : DepTree
deriving Repr

/-- The `structure` field of a tree node. -/
def DepTree.structOf : DepTree → String
  | .node s _ _ _ _ _ => s

/-- The `currentLevel` field of a tree node. -/
def DepTree.currentLevelOf : DepTree → Nat
  | .node _ c _ _ _ _ => c

/-- The `targetLevel` field of a tree node. -/
def DepTree.targetLevelOf : DepTree → Nat
  | .node _ _ t _ _ _ => t

/-- The `costs` field of a tree node. -/
def DepTree.costsOf : DepTree → Costs
  | .node _ _ _ cs _ _ => cs

/-- The `time` field of a tree node. -/
def DepTree.timeOf : DepTree → ℚ
  | .node _ _ _ _ t _ => t

/-- The `children` field of a tree node. -/
def DepTree.childrenOf : DepTree → List DepTree
  | .node _ _ _ _ _ ch => ch

/-- In-progress accumulation of one node's `costs`/`time`/`children` while
walking the level range (the JS code mutates the freshly built node). -/
structure TreeAcc where
  costs : Costs
  time : ℚ
  children : List DepTree

/-- Per-level requirement walk of the tree builder.  For each parsed
requirement whose required level exceeds the dependency's current level:
skip it if a child with the same `(structure, targetLevel)` already exists in
THIS node's children list, otherwise recurse (`f`) and append the child.
The `visited` set is passed to `f` (the JS code copies it) but never read. -/
def processTreeReqs (f : String → Nat → Nat → List String → Option DepTree)
    (lvls : LevelMap) :
    List String → TreeAcc → List String → Option TreeAcc
  | [], acc, _ => some acc
  | req :: rest, acc, visited =>
    match parseRequirement req with
    | none => processTreeReqs f lvls rest acc visited
    | some p =>
      let depCurrentLevel := currentLevelOf lvls p.struct
      if p.level > depCurrentLevel then
        if acc.children.any
            (fun child => child.structOf == p.struct &&
              child.targetLevelOf == p.level) then
          processTreeReqs f lvls rest acc visited
        else
          match f p.struct p.level depCurrentLevel visited with
          | none => none
          | some childTree =>
            processTreeReqs f lvls rest
              { acc with children := acc.children ++ [childTree] } visited
      else processTreeReqs f lvls rest acc visited

/-- Level walk of the tree builder: accumulate this level's costs and
speed-adjusted time into the node, then process its requirements. -/
def processTreeLevels (f : String → Nat → Nat → List String → Option DepTree)
    (structuresData : DB) (lvls : LevelMap) (constructionSpeedBonus : ℚ)
    (structureName : String) :
    List Nat → TreeAcc → List String → Option TreeAcc
  | [], acc, _ => some acc
  | lvl :: rest, acc, visited =>
    match alookup structuresData structureName with
    | none => processTreeLevels f structuresData lvls constructionSpeedBonus
        structureName rest acc visited
    | some sd =>
      match alookup sd.levels lvl with
      | none => processTreeLevels f structuresData lvls constructionSpeedBonus
          structureName rest acc visited
      | some ld =>
        let acc1 := { acc with costs := foldCosts acc.costs ld.costs }
        let acc2 :=
          if ld.upgrade_time ≠ 0 then
            { acc1 with time := acc1.time +
                ld.upgrade_time / (1 + constructionSpeedBonus / 100) }
          else acc1
        match processTreeReqs f lvls ld.requirements acc2 visited with
        | none => none
        | some acc3 =>
          processTreeLevels f structuresData lvls constructionSpeedBonus
            structureName rest acc3 visited

/-- `buildDependencyTree`, fuel-indexed.  Mirrors the JS function: resolve a
`null` current level, return the bare node when no upgrade is needed, and
otherwise walk the level range once, collecting costs, time and (locally
deduplicated) children.  The `visited` argument is copied to recursive calls
and never inspected. -/
def buildDependencyTree :
    Nat → String → Nat → Option Nat → DB → LevelMap → ℚ → List String →
    Option DepTree
  | 0, _, _, _, _, _, _, _ => none
  | fuel + 1, structureName, targetLevel, currentLevelArg, structuresData,
      currentLevels, constructionSpeedBonus, visited =>
    let currentLevel :=
      match currentLevelArg with
      | some c => c
      | none => currentLevelOf currentLevels structureName
    if targetLevel ≤ currentLevel then
      some (.node structureName currentLevel targetLevel [] 0 [])
    else
      match processTreeLevels
          (fun s t c v =>
            buildDependencyTree fuel s t (some c) structuresData
              currentLevels constructionSpeedBonus v)
          structuresData currentLevels constructionSpeedBonus structureName
          (levelRange currentLevel targetLevel) ⟨[], 0, []⟩ visited with
      | none => none
      | some acc =>
        some (.node structureName currentLevel targetLevel
          acc.costs acc.time acc.children)

/-! ## Derived notions used by the claims -/

/-- Modelled from the spec: the requirement-parsing contract of §4.1 read as
an anchored pattern — the whole string must be `Level`, a space, one or more
digits, one or more whitespace characters, then a nonempty rest-of-string
taken verbatim as the structure name.  Used only to compare the claimed
behaviour with `parseRequirement`. -/
def parseRequirementSpec (s : String) : Option Req :=
  match stripChars "Level ".data s.data with
  | none => none
  | some rest =>
    let ds := rest.takeWhile isDigitChar
    let after := rest.dropWhile isDigitChar
    let name := after.dropWhile jsWhitespace
    if ds = [] then none
    else if after.takeWhile jsWhitespace = [] then none
    else if name = [] then none
    else some ⟨String.mk name, natOfDigits ds⟩

/-- A successful `parseRequirement` output decomposes its input: somewhere in
the string there is `Level `, a nonempty digit run, a nonempty whitespace
run, then the returned structure name — a nonempty run of non-line-terminator
characters — and the returned level is the numeric value of the digits. -/
def MatchDecomp (s : String) (r : Req) : Prop :=
  ∃ pre ds w suffix,
    s.data = pre ++ "Level ".data ++ ds ++ w ++ r.struct.data ++ suffix ∧
    ds ≠ [] ∧ ds.all isDigitChar ∧ w ≠ [] ∧ w.all jsWhitespace ∧
    r.struct.data ≠ [] ∧ r.struct.data.all jsDot ∧ r.level = natOfDigits ds

/-- The three cost maps of an aggregator output (everything the speed bonus
must not influence). -/
def costsView (out : AggOut) : Costs × Costs × Costs :=
  (out.1.individualCosts, out.1.dependencyCosts, out.1.totalCosts)

/-- Scale every time field of a result by `k`, leaving costs, dependencies'
names/levels/resources, and everything else unchanged. -/
def scaleAgg (k : ℚ) (r : AggResult) : AggResult :=
  { r with
    individualTimes := r.individualTimes * k
    dependencyTimes := r.dependencyTimes * k
    totalTime := r.totalTime * k
    dependencies := r.dependencies.map (fun d => { d with time := d.time * k }) }

/-- Scale the time fields of an aggregator output. -/
def scaleOut (k : ℚ) (out : AggOut) : AggOut :=
  (scaleAgg k out.1, out.2.1, out.2.2)

/-- Every `upgrade_time` in the database is non-negative (the data-model
invariant of spec §3). -/
def DBTimesNonneg (db : DB) : Prop :=
  ∀ e ∈ db, ∀ le ∈ e.2.levels, 0 ≤ le.2.upgrade_time

instance : DecidablePred DBTimesNonneg := fun db =>
  inferInstanceAs (Decidable (∀ e ∈ db, ∀ le ∈ e.2.levels, 0 ≤ le.2.upgrade_time))

/-- No two entries of a children list share the same
(structure, targetLevel) pair. -/
def noDupChildren : List DepTree → Bool
  | [] => true
  | c :: rest =>
    !(rest.any (fun c2 => c2.structOf == c.structOf &&
        c2.targetLevelOf == c.targetLevelOf)) && noDupChildren rest

mutual
/-- Every node of the tree has duplicate-free direct children. -/
def siblingDedup : DepTree → Bool
  | .node _ _ _ _ _ ch => noDupChildren ch && siblingDedupAll ch

/-- `siblingDedup` on every tree of a list. -/
def siblingDedupAll : List DepTree → Bool
  | [] => true
  | t :: ts => siblingDedup t && siblingDedupAll ts
end

mutual
/-- Number of nodes in the tree whose `structure` field is `s`. -/
def countStruct : DepTree → String → Nat
  | .node s0 _ _ _ _ ch, s =>
    (if s0 = s then 1 else 0) + countStructAll ch s

/-- Total `countStruct` over a list of trees. -/
def countStructAll : List DepTree → String → Nat
  | [], _ => 0
  | t :: ts, s => countStruct t s + countStructAll ts s
end

/-! ## Concrete databases used by the claims -/

/-- The end-to-end scenario database of spec §8: Mine levels 1..3,
Warehouse levels 1..2. -/
def mineDB : DB :=
  [("Mine", ⟨[(1, ⟨[], 0, []⟩),
              (2, ⟨[("metal", 100)], 60, ["Level 1 Warehouse"]⟩),
              (3, ⟨[("metal", 200)], 120, ["Level 2 Warehouse"]⟩)]⟩),
   ("Warehouse", ⟨[(1, ⟨[], 0, []⟩), (2, ⟨[("wood", 50)], 30, []⟩)]⟩)]

/-- Current levels for the end-to-end scenario: Mine 1, Warehouse 1. -/
def mineLvls : LevelMap := [("Mine", 1), ("Warehouse", 1)]

/-- Cross-path scenario where every path demands the same maximum level of
B: A's levels 2 and 3 require B at levels 2 and 3; A also requires C, and C
requires `Level 3 B` — the same level as A's maximum demand. -/
def crossSameDB : DB :=
  [("A", ⟨[(2, ⟨[], 0, ["Level 2 B"]⟩),
           (3, ⟨[], 0, ["Level 3 B", "Level 2 C"]⟩)]⟩),
   ("B", ⟨[(2, ⟨[("metal", 10)], 0, []⟩),
           (3, ⟨[("metal", 100)], 0, []⟩)]⟩),
   ("C", ⟨[(2, ⟨[("wood", 5)], 0, ["Level 3 B"]⟩)]⟩)]

/-- Cross-path scenario where the nested path demands a different level of
B: as `crossSameDB`, but C requires `Level 2 B` while A's direct maximum
demand is level 3. -/
def crossDiffDB : DB :=
  [("A", ⟨[(2, ⟨[], 0, ["Level 2 B"]⟩),
           (3, ⟨[], 0, ["Level 3 B", "Level 2 C"]⟩)]⟩),
   ("B", ⟨[(2, ⟨[("metal", 10)], 0, []⟩),
           (3, ⟨[("metal", 100)], 0, []⟩)]⟩),
   ("C", ⟨[(2, ⟨[("wood", 5)], 0, ["Level 2 B"]⟩)]⟩)]

/-- Tree scenario where B is reachable through two distinct branches: A
requires C and D, and each of C and D requires `Level 2 B`. -/
def forkDB : DB :=
  [("A", ⟨[(2, ⟨[], 0, ["Level 2 C", "Level 2 D"]⟩)]⟩),
   ("C", ⟨[(2, ⟨[], 0, ["Level 2 B"]⟩)]⟩),
   ("D", ⟨[(2, ⟨[], 0, ["Level 2 B"]⟩)]⟩),
   ("B", ⟨[(2, ⟨[("metal", 10)], 5, []⟩)]⟩)]

/-- One structure with a single upgradable level taking 60 seconds. -/
def timeDB : DB := [("S", ⟨[(2, ⟨[], 60, []⟩)]⟩)]

/-- Total contribution of one cost map to resource `r` (the amount a
`foldCosts` adds at key `r`). -/
def resSum (src : Costs) (r : String) : ℚ :=
  (src.map (fun p => if p.1 = r then p.2 else 0)).sum

/-! ## Claim theorems: concrete scenarios -/

/-- C2: aggregating Mine from level 1 to 3 at 0% speed bonus over the §8
end-to-end database yields individualCosts {metal: 300}, individualTimes
180, dependencyCosts {wood: 50}, totalCosts {metal: 300, wood: 50},
totalTime 210, and a single dependency entry for Warehouse at its maximum
required level 2 (superseding the level-1 demand), with resources
{wood: 50} and time 30. -/
theorem mine_end_to_end_scenario :
    calculateResourcesRecursive 5 "Mine" 3 (some 1) 0 mineDB mineLvls [] =
      some
        ({ individualCosts := [("metal", 300)]
           dependencyCosts := [("wood", 50)]
           totalCosts := [("metal", 300), ("wood", 50)]
           dependencies := [{ name := "Warehouse", level := 2
                              resources := [("wood", 50)], time := 30 }]
           individualTimes := 180
           dependencyTimes := 30
           totalTime := 210 },
         ["Warehouse-2"], [("Warehouse", 2)]) := by
  with_unfolding_all rfl

/-- C1 counterexample: in `crossDiffDB`, two different levels of A (2 and 3)
each require a higher level of B (2 and 3), and B is also reachable as a
nested prerequisite via the third structure C — yet a single top-level call
charges B twice: the ghost trace contains two B entries ((B,3) from A's
direct demands and (B,2) again underneath C), and totalCosts.metal is 120,
double-counting B's level-2 upgrade (a single charge at B's maximum level 3
would contribute 110). -/
theorem aggregator_cross_path_counterexample :
    (calculateResourcesRecursive 10 "A" 3 (some 1) 0 crossDiffDB [] []).map
        (fun out => ((out.2.2.filter (fun p => p.1 == "B")).length,
                     getRes out.1.totalCosts "metal")) = some (2, 120) := by
  with_unfolding_all rfl

/-- C1 amended: when every reaching path demands B at the same maximum
level (`crossSameDB`: A's levels demand B at 2 then 3, and C — which is
itself expanded, contributing its wood cost — demands B at that same
maximum 3), one top-level call charges B exactly once: the nested B demand
under C hits the shared visited key "B-3" and is skipped, so the ghost
trace and the dependencies list each contain exactly one B entry, at the
maximum level 3 with B's full 1→3 cost 110, C's entry carries only its own
wood cost, and totalCosts/dependencyCosts count the 110 exactly once
(a recharge under C would have made metal 120 and put a second B pair in
the trace). -/
theorem aggregator_cross_path_dedup_amended :
    calculateResourcesRecursive 10 "A" 3 (some 1) 0 crossSameDB [] [] =
      some
        ({ individualCosts := []
           dependencyCosts := [("metal", 110), ("wood", 5)]
           totalCosts := [("metal", 110), ("wood", 5)]
           dependencies := [{ name := "B", level := 3
                              resources := [("metal", 110)], time := 0 },
                            { name := "C", level := 2
                              resources := [("wood", 5)], time := 0 }]
           individualTimes := 0
           dependencyTimes := 0
           totalTime := 0 },
         ["C-2", "B-3"], [("B", 3), ("C", 2)]) ∧
    (calculateResourcesRecursive 10 "A" 3 (some 1) 0 crossSameDB [] []).map
        (fun out =>
          ((out.2.2.filter (fun p => p.1 == "B")).length,
           (out.1.dependencies.filter (fun d => d.name == "B")).map
             (fun d => (d.level, d.resources)),
           getRes out.1.totalCosts "metal",
           getRes out.1.dependencyCosts "metal")) =
      some (1, [(3, [("metal", 110)])], 110, 110) := by
  exact ⟨by with_unfolding_all rfl, by with_unfolding_all rfl⟩

/-- C6 counterexample: with the claim's unrestricted quantification over
bonuses, take p1 = -200 ≤ p2 = 0 on a structure whose single upgrade takes
60 seconds: the divisor 1 + p/100 is negative at p1, so the total time is
-60 at p1 but 60 at p2, and the claimed inequality time(p2) ≤ time(p1)
fails. -/
theorem speed_bonus_monotonicity_counterexample :
    (calculateResourcesRecursive 2 "S" 2 (some 1) (-200) timeDB [] []).map
        (fun o => o.1.totalTime) = some (-60) ∧
    (calculateResourcesRecursive 2 "S" 2 (some 1) 0 timeDB [] []).map
        (fun o => o.1.totalTime) = some 60 ∧
    ¬ ((60 : ℚ) ≤ -60) := by
  refine ⟨by with_unfolding_all rfl, by with_unfolding_all rfl, ?_⟩
  with_unfolding_all decide

/-- C8 counterexample: the JS regex is unanchored, so the string
"xLevel 5 Barracks" — which does not match the claimed pattern
`Level <digits> <rest-of-string>` (it does not start with "Level") — still
parses successfully, contradicting "returns None for every string that does
not match this pattern". -/
theorem parseRequirement_unanchored_counterexample :
    parseRequirement "xLevel 5 Barracks" = some ⟨"Barracks", 5⟩ ∧
    parseRequirementSpec "xLevel 5 Barracks" = none := by
  exact ⟨rfl, rfl⟩

/-- C7: for every number of seconds, formatTime agrees with the spec-worded
formatter — decompose into days/hours/minutes/seconds by integer division
(86400, 3600, 60), join the non-zero components in descending unit order,
include seconds only when both days and hours are zero, and return "0s"
when all components are zero; in particular formatTime 0 = "0s",
formatTime 45 = "45s", formatTime 3661 = "1h 1m" and
formatTime 90000 = "1d 1h". -/
theorem formatTime_matches_contract :
    (∀ s : ℚ, formatTime s = formatTimeSpec s) ∧
    formatTime 0 = "0s" ∧ formatTime 45 = "45s" ∧
    formatTime 3661 = "1h 1m" ∧ formatTime 90000 = "1d 1h" := by
  refine ⟨fun s => ?_, by with_unfolding_all rfl, by with_unfolding_all rfl,
    by with_unfolding_all rfl, by with_unfolding_all rfl⟩
  unfold formatTime formatTimeSpec
  simp only []
  generalize ⌊s / 86400⌋ = d
  generalize ⌊fmod s 86400 / 3600⌋ = h
  generalize ⌊fmod s 3600 / 60⌋ = m
  generalize ⌊fmod s 60⌋ = sec
  by_cases hd : d > 0 <;> by_cases hh : h > 0 <;> by_cases hm : m > 0 <;>
    by_cases hc : sec > 0 ∧ d = 0 ∧ h = 0 <;>
    simp [hd, hh, hm, hc, List.filter]

/-- The tree builder's level walk returns the accumulator unchanged when the
structure is absent from the database. -/
theorem processTreeLevels_absent (f : String → Nat → Nat → List String → Option DepTree)
    (db : DB) (lvls : LevelMap) (b : ℚ) (s : String)
    (h : alookup db s = none) :
    ∀ (range : List Nat) (acc : TreeAcc) (v : List String),
      processTreeLevels f db lvls b s range acc v = some acc := by
  intro range
  induction range with
  | nil => intro acc v; rfl
  | cons lvl rest ih => intro acc v; simp [processTreeLevels, h, ih]

/-- C5: whenever the named structure is absent from the database or the
target level does not exceed the current level, the aggregator returns the
zero-valued result (all cost maps empty, all three time fields 0, no
dependencies) without touching the visited set, and the tree builder
returns a bare node with empty costs, time 0 and no children. -/
theorem zero_result_base_cases :
    ∀ (n : Nat) (s : String) (t c : Nat) (bonus : ℚ) (db : DB)
      (lvls : LevelMap) (v : List String),
      alookup db s = none ∨ t ≤ c →
      calculateResourcesRecursive (n + 1) s t (some c) bonus db lvls v =
        some (emptyAgg, v, []) ∧
      buildDependencyTree (n + 1) s t (some c) db lvls bonus v =
        some (.node s c t [] 0 []) := by
  intro n s t c bonus db lvls v h
  constructor
  · rcases h with h | h
    · simp [calculateResourcesRecursive, h]
    · simp [calculateResourcesRecursive, h]
      cases alookup db s <;> simp [h]
  · rcases h with h | h
    · by_cases ht : t ≤ c
      · simp [buildDependencyTree, ht]
      · simp [buildDependencyTree, ht, processTreeLevels_absent _ _ _ _ _ h]
    · simp [buildDependencyTree, h]

/-- C5 witness: instantiating the base-case theorem at a structure missing
from an empty database. -/
theorem zero_result_base_cases_witness :
    calculateResourcesRecursive 1 "Nowhere" 2 (some 1) 0 [] [] [] =
      some (emptyAgg, [], []) ∧
    buildDependencyTree 1 "Nowhere" 2 (some 1) [] [] 0 [] =
      some (.node "Nowhere" 1 2 [] 0 []) :=
  zero_result_base_cases 0 "Nowhere" 2 1 0 [] [] [] (Or.inl rfl)

/-- The tree builder's requirement walk does not depend on the visited set
it forwards, provided the recursive call does not either. -/
theorem processTreeReqs_vis (f : String → Nat → Nat → List String → Option DepTree)
    (lvls : LevelMap)
    (hf : ∀ s t c v v', f s t c v = f s t c v') :
    ∀ (reqs : List String) (acc : TreeAcc) (v v' : List String),
      processTreeReqs f lvls reqs acc v = processTreeReqs f lvls reqs acc v' := by
  intro reqs
  induction reqs with
  | nil => intro acc v v'; rfl
  | cons req rest ih =>
    intro acc v v'
    simp only [processTreeReqs]
    cases parseRequirement req with
    | none => exact ih acc v v'
    | some p =>
      simp only
      split
      · split
        · exact ih acc v v'
        · rw [hf p.struct p.level (currentLevelOf lvls p.struct) v v']
          cases f p.struct p.level (currentLevelOf lvls p.struct) v' with
          | none => rfl
          | some child => exact ih _ v v'
      · exact ih acc v v'

/-- The tree builder's level walk does not depend on the visited set it
forwards, provided the recursive call does not either. -/
theorem processTreeLevels_vis (f : String → Nat → Nat → List String → Option DepTree)
    (db : DB) (lvls : LevelMap) (b : ℚ) (s : String)
    (hf : ∀ s t c v v', f s t c v = f s t c v') :
    ∀ (range : List Nat) (acc : TreeAcc) (v v' : List String),
      processTreeLevels f db lvls b s range acc v =
        processTreeLevels f db lvls b s range acc v' := by
  intro range
  induction range with
  | nil => intro acc v v'; rfl
  | cons lvl rest ih =>
    intro acc v v'
    simp only [processTreeLevels]
    cases alookup db s with
    | none => exact ih acc v v'
    | some sd =>
      simp only
      cases alookup sd.levels lvl with
      | none => exact ih acc v v'
      | some ld =>
        simp only
        rw [processTreeReqs_vis f lvls hf ld.requirements _ v v']
        cases processTreeReqs f lvls ld.requirements _ v' with
        | none => rfl
        | some acc3 => exact ih acc3 v v'

/-- C10: the tree returned by buildDependencyTree is independent of the
visited argument — the set is copied to recursive calls but never read or
written, so any two initial visited sets produce identical trees. -/
theorem buildTree_visited_independent :
    ∀ (fuel : Nat) (s : String) (t : Nat) (c : Option Nat) (db : DB)
      (lvls : LevelMap) (bonus : ℚ) (v₁ v₂ : List String),
      buildDependencyTree fuel s t c db lvls bonus v₁ =
        buildDependencyTree fuel s t c db lvls bonus v₂ := by
  intro fuel
  induction fuel with
  | zero => intro s t c db lvls bonus v₁ v₂; rfl
  | succ n ih =>
    intro s t c db lvls bonus v₁ v₂
    simp only [buildDependencyTree]
    split
    · rfl
    · rw [processTreeLevels_vis _ db lvls bonus s
        (fun s' t' c' w w' => ih s' t' (some c') db lvls bonus w w')]

/-- A fold preserves any invariant its step preserves. -/
theorem foldl_inv {α β : Type} (P : α → Prop) (g : α → β → α)
    (hg : ∀ a b, P a → P (g a b)) :
    ∀ (l : List β) (a : α), P a → P (l.foldl g a) := by
  intro l
  induction l with
  | nil => intro a ha; exact ha
  | cons b bs ih => intro a ha; exact ih (g a b) (hg a b ha)

/-- Reading a cost map after `addCost`. -/
theorem getRes_addCost (m : Costs) (k : String) (a : ℚ) (r : String) :
    getRes (addCost m k a) r = getRes m r + if k = r then a else 0 := by
  induction m with
  | nil =>
    by_cases h : k = r <;> simp [addCost, getRes, alookup, h]
  | cons p t ih =>
    obtain ⟨pk, pv⟩ := p
    by_cases hk : pk = k
    · subst hk
      by_cases hr : pk = r <;> simp [addCost, getRes, alookup, hr]
    · by_cases hr : pk = r
      · subst hr
        simp [addCost, getRes, alookup, hk]
        intro h; exact absurd h.symm hk
      · simp [addCost, getRes, alookup, hk, hr] at ih ⊢
        exact ih

/-- Reading a cost map after folding another map into it. -/
theorem getRes_foldCosts (src : Costs) : ∀ (dst : Costs) (r : String),
    getRes (foldCosts dst src) r = getRes dst r + resSum src r := by
  induction src with
  | nil => intro dst r; simp [foldCosts, resSum]
  | cons p ps ih =>
    intro dst r
    have hstep : foldCosts dst (p :: ps) = foldCosts (addCost dst p.1 p.2) ps := rfl
    rw [hstep, ih, getRes_addCost]
    simp [resSum]
    ring

/-- Reading the empty cost map. -/
theorem getRes_nil (r : String) : getRes [] r = 0 := rfl

/-- After pass 2 the total fields coincide with the individual fields and
all dependency fields are untouched. -/
theorem pass2_flat (sd : StructureDef) (c t : Nat) (bonus : ℚ) :
    (pass2 sd c t bonus).totalCosts = (pass2 sd c t bonus).individualCosts ∧
    (pass2 sd c t bonus).dependencyCosts = [] ∧
    (pass2 sd c t bonus).totalTime = (pass2 sd c t bonus).individualTimes ∧
    (pass2 sd c t bonus).dependencyTimes = 0 ∧
    (pass2 sd c t bonus).dependencies = [] := by
  unfold pass2
  refine foldl_inv
    (fun res : AggResult => res.totalCosts = res.individualCosts ∧
      res.dependencyCosts = [] ∧ res.totalTime = res.individualTimes ∧
      res.dependencyTimes = 0 ∧ res.dependencies = [])
    _ ?_ _ emptyAgg ⟨rfl, rfl, rfl, rfl, rfl⟩
  intro res lvl hres
  cases h : alookup sd.levels lvl with
  | none => simpa [h] using hres
  | some ld =>
    simp only [h]
    have hinner := foldl_inv
      (fun res : AggResult => res.totalCosts = res.individualCosts ∧
        res.dependencyCosts = [] ∧ res.totalTime = res.individualTimes ∧
        res.dependencyTimes = 0 ∧ res.dependencies = [])
      (fun r p => { r with individualCosts := addCost r.individualCosts p.1 p.2
                           totalCosts := addCost r.totalCosts p.1 p.2 })
      (fun a b ha => by
        refine ⟨?_, ha.2.1, ha.2.2.1, ha.2.2.2.1, ha.2.2.2.2⟩
        simp [ha.1])
      ld.costs res hres
    split
    · exact ⟨hinner.1, hinner.2.1, by simp [hinner.2.2.1], hinner.2.2.2.1,
        hinner.2.2.2.2⟩
    · exact hinner

/-- Pass 3 preserves the additive relationship between the total,
individual and dependency fields, whatever the recursive calls return. -/
theorem processDeps_addRel (f : String → Nat → Nat → List String → Option AggOut)
    (lvls : LevelMap) :
    ∀ (deps : List (String × Nat)) (res : AggResult) (vis : List String)
      (tr : List (String × Nat)) (out : AggOut),
      (∀ r, getRes res.totalCosts r =
        getRes res.individualCosts r + getRes res.dependencyCosts r) →
      res.totalTime = res.individualTimes + res.dependencyTimes →
      processDeps f lvls deps res vis tr = some out →
      (∀ r, getRes out.1.totalCosts r =
        getRes out.1.individualCosts r + getRes out.1.dependencyCosts r) ∧
      out.1.totalTime = out.1.individualTimes + out.1.dependencyTimes := by
  intro deps
  induction deps with
  | nil =>
    intro res vis tr out h1 h2 hp
    simp only [processDeps, Option.some.injEq] at hp
    cases hp
    exact ⟨h1, h2⟩
  | cons d rest ih =>
    intro res vis tr out h1 h2 hp
    obtain ⟨ds, dl⟩ := d
    simp only [processDeps] at hp
    split at hp
    · split at hp
      · exact ih res vis tr out h1 h2 hp
      · cases hf : f ds dl (currentLevelOf lvls ds) (depKey ds dl :: vis) with
        | none => rw [hf] at hp; simp at hp
        | some depOut =>
          obtain ⟨depResult, vis', depTrace⟩ := depOut
          rw [hf] at hp
          simp only at hp
          refine ih _ _ _ _ ?_ ?_ hp
          · intro r
            simp only [getRes_foldCosts]
            rw [h1 r]
            ring
          · simp only
            rw [h2]
            ring
    · exact ih res vis tr out h1 h2 hp

/-- C3: for every input and every terminating execution, the aggregator's
result satisfies totalCosts[r] = individualCosts[r] + dependencyCosts[r]
for every resource r (missing keys counting as 0, hence for all resources,
including those present in any of the three maps) and
totalTime = individualTimes + dependencyTimes. -/
theorem aggregate_additive_invariant :
    ∀ (fuel : Nat) (s : String) (t : Nat) (c : Option Nat) (bonus : ℚ)
      (db : DB) (lvls : LevelMap) (v : List String) (out : AggOut),
      calculateResourcesRecursive fuel s t c bonus db lvls v = some out →
      (∀ r, getRes out.1.totalCosts r =
        getRes out.1.individualCosts r + getRes out.1.dependencyCosts r) ∧
      out.1.totalTime = out.1.individualTimes + out.1.dependencyTimes := by
  intro fuel s t c bonus db lvls v out h
  match fuel with
  | 0 => simp [calculateResourcesRecursive] at h
  | n + 1 =>
    simp only [calculateResourcesRecursive] at h
    cases hdb : alookup db s with
    | none =>
      rw [hdb] at h
      simp only [Option.some.injEq] at h
      cases h
      exact ⟨fun r => by simp [emptyAgg, getRes, alookup], by simp [emptyAgg]⟩
    | some sd =>
      rw [hdb] at h
      simp only at h
      obtain ⟨cur, hc⟩ : ∃ cur,
          (match c with | some c0 => c0 | none => currentLevelOf lvls s) = cur :=
        ⟨_, rfl⟩
      rw [hc] at h
      split at h
      · simp only [Option.some.injEq] at h
        cases h
        exact ⟨fun r => by simp [emptyAgg, getRes, alookup], by simp [emptyAgg]⟩
      · have hflat := pass2_flat sd cur t bonus
        refine processDeps_addRel _ _ _ _ _ _ _ ?_ ?_ h
        · intro r
          rw [hflat.1, hflat.2.1]
          simp [getRes, alookup]
        · rw [hflat.2.2.1, hflat.2.2.2.1]
          ring

/-- C3 witness: the additive invariant instantiated on the Mine scenario. -/
theorem aggregate_additive_invariant_witness :
    getRes ([("metal", 300), ("wood", 50)] : Costs) "wood" =
      getRes ([("metal", 300)] : Costs) "wood" +
        getRes ([("wood", 50)] : Costs) "wood" ∧
    (210 : ℚ) = 180 + 30 := by
  have h := aggregate_additive_invariant 5 "Mine" 3 (some 1) 0 mineDB mineLvls []
    ({ individualCosts := [("metal", 300)]
       dependencyCosts := [("wood", 50)]
       totalCosts := [("metal", 300), ("wood", 50)]
       dependencies := [{ name := "Warehouse", level := 2
                          resources := [("wood", 50)], time := 30 }]
       individualTimes := 180
       dependencyTimes := 30
       totalTime := 210 },
     ["Warehouse-2"], [("Warehouse", 2)]) (by with_unfolding_all rfl)
  exact ⟨h.1 "wood", h.2⟩

/-- Pass 3 maintains the visited-set discipline: assuming recursive calls
do too, the visited set only grows, every traced pair's key is recorded in
the final visited set, newly traced pairs' keys were not previously
visited, and the trace's keys are pairwise distinct. -/
theorem processDeps_vis (f : String → Nat → Nat → List String → Option AggOut)
    (lvls : LevelMap)
    (hf : ∀ s t c v out, f s t c v = some out →
      (∀ k ∈ v, k ∈ out.2.1) ∧
      (out.2.2.map (fun p => depKey p.1 p.2)).Nodup ∧
      (∀ p ∈ out.2.2, depKey p.1 p.2 ∈ out.2.1 ∧ depKey p.1 p.2 ∉ v)) :
    ∀ (deps : List (String × Nat)) (res : AggResult) (vis : List String)
      (tr : List (String × Nat)) (out : AggOut),
      (tr.map (fun p => depKey p.1 p.2)).Nodup →
      (∀ p ∈ tr, depKey p.1 p.2 ∈ vis) →
      processDeps f lvls deps res vis tr = some out →
      (∀ k ∈ vis, k ∈ out.2.1) ∧
      (out.2.2.map (fun p => depKey p.1 p.2)).Nodup ∧
      (∀ p ∈ out.2.2, depKey p.1 p.2 ∈ out.2.1) ∧
      (∀ p ∈ out.2.2, p ∈ tr ∨ depKey p.1 p.2 ∉ vis) := by
  intro deps
  induction deps with
  | nil =>
    intro res vis tr out h1 h2 hp
    simp only [processDeps, Option.some.injEq] at hp
    cases hp
    exact ⟨fun k hk => hk, h1, fun p hp => h2 p hp, fun p hp => Or.inl hp⟩
  | cons d rest ih =>
    intro res vis tr out h1 h2 hp
    obtain ⟨ds, dl⟩ := d
    simp only [processDeps] at hp
    split at hp
    · split at hp
      · exact ih res vis tr out h1 h2 hp
      · rename_i hnotmem
        cases hf0 : f ds dl (currentLevelOf lvls ds) (depKey ds dl :: vis) with
        | none => rw [hf0] at hp; simp at hp
        | some depOut =>
          obtain ⟨depResult, vis', depTrace⟩ := depOut
          rw [hf0] at hp
          simp only at hp
          obtain ⟨hsub, hnodup, hmem⟩ := hf ds dl _ _ _ hf0
          have hvs : ∀ k ∈ vis, k ∈ vis' := fun k hk =>
            hsub k (List.mem_cons_of_mem _ hk)
          have hkeyin : depKey ds dl ∈ vis' := hsub _ (List.mem_cons_self _ _)
          have htr' : ((tr ++ depTrace ++ [(ds, dl)]).map
              (fun p => depKey p.1 p.2)).Nodup := by
            simp only [List.map_append, List.nodup_append]
            refine ⟨⟨h1, hnodup, ?_⟩, List.nodup_singleton _, ?_⟩
            · intro k hk
              simp only [List.mem_map] at hk ⊢
              obtain ⟨p, hptr, hpk⟩ := hk
              intro ⟨q, hqdt, hqk⟩
              exact (hmem q hqdt).2 (List.mem_cons_of_mem _
                (by rw [hqk, ← hpk]; exact h2 p hptr))
            · intro k hk
              simp only [List.mem_append, List.mem_map] at hk
              simp only [List.map_cons, List.map_nil, List.mem_singleton]
              rcases hk with ⟨p, hptr, hpk⟩ | ⟨q, hqdt, hqk⟩
              · intro hkk
                exact hnotmem (by rw [← hkk, ← hpk] at hnotmem ⊢; exact h2 p hptr)
              · intro hkk
                exact (hmem q hqdt).2 (by rw [hqk, hkk]; exact List.mem_cons_self _ _)
          have htr2 : ∀ p ∈ tr ++ depTrace ++ [(ds, dl)],
              depKey p.1 p.2 ∈ vis' := by
            intro p hp0
            simp only [List.mem_append, List.mem_singleton] at hp0
            rcases hp0 with (hp0 | hp0) | hp0
            · exact hvs _ (h2 p hp0)
            · exact (hmem p hp0).1
            · subst hp0; exact hkeyin
          obtain ⟨c1, c2, c3, c4⟩ := ih _ _ _ _ htr' htr2 hp
          refine ⟨fun k hk => c1 k (hvs k hk), c2, c3, ?_⟩
          intro p hpo
          rcases c4 p hpo with hin | hnin
          · simp only [List.mem_append, List.mem_singleton] at hin
            rcases hin with (hin | hin) | hin
            · exact Or.inl hin
            · exact Or.inr (fun hv => (hmem p hin).2 (List.mem_cons_of_mem _ hv))
            · subst hin; exact Or.inr hnotmem
          · exact Or.inr (fun hv => hnin (hvs _ hv))
    · exact ih res vis tr out h1 h2 hp

/-- The aggregator's visited-set discipline, by induction on fuel. -/
theorem calc_vis :
    ∀ (fuel : Nat) (s : String) (t : Nat) (c : Option Nat) (bonus : ℚ)
      (db : DB) (lvls : LevelMap) (v : List String) (out : AggOut),
      calculateResourcesRecursive fuel s t c bonus db lvls v = some out →
      (∀ k ∈ v, k ∈ out.2.1) ∧
      (out.2.2.map (fun p => depKey p.1 p.2)).Nodup ∧
      (∀ p ∈ out.2.2, depKey p.1 p.2 ∈ out.2.1 ∧ depKey p.1 p.2 ∉ v) := by
  intro fuel
  induction fuel with
  | zero => intro s t c bonus db lvls v out h; simp [calculateResourcesRecursive] at h
  | succ n ih =>
    intro s t c bonus db lvls v out h
    simp only [calculateResourcesRecursive] at h
    cases hdb : alookup db s with
    | none =>
      rw [hdb] at h
      simp only [Option.some.injEq] at h
      cases h
      exact ⟨fun k hk => hk, List.nodup_nil, fun p hp => absurd hp (List.not_mem_nil p)⟩
    | some sd =>
      rw [hdb] at h
      simp only at h
      split at h
      · simp only [Option.some.injEq] at h
        cases h
        exact ⟨fun k hk => hk, List.nodup_nil, fun p hp => absurd hp (List.not_mem_nil p)⟩
      · have hmain := processDeps_vis _ lvls
          (fun s' t' c' v' out' h' => ih s' t' (some c') bonus db lvls v' out' h')
          _ _ _ _ _ (by simp) (fun p hp => absurd hp (List.not_mem_nil p)) h
        exact ⟨hmain.1, hmain.2.1, fun p hp => ⟨hmain.2.2.1 p hp,
          fun hv => (hmain.2.2.2 p hp).elim (List.not_mem_nil p) (fun hn => hn hv)⟩⟩

/-- C4: within a single invocation (any initial visited set v), the ghost
trace — which records every (name, level) pair appended to any
dependencies list, and equivalently every fold of a dependency's costs into
the totals — contains no duplicate pair, not even under the name-level
dedup key, and never contains a pair whose key was already in v: a key
already present is skipped entirely.  The visited set is threaded through
(shared with) every recursive descendant, which is what the proof's
induction tracks. -/
theorem dependency_pairs_never_charged_twice :
    ∀ (fuel : Nat) (s : String) (t : Nat) (c : Option Nat) (bonus : ℚ)
      (db : DB) (lvls : LevelMap) (v : List String) (out : AggOut),
      calculateResourcesRecursive fuel s t c bonus db lvls v = some out →
      out.2.2.Nodup ∧
      (out.2.2.map (fun p => depKey p.1 p.2)).Nodup ∧
      (∀ p ∈ out.2.2, depKey p.1 p.2 ∉ v) := by
  intro fuel s t c bonus db lvls v out h
  obtain ⟨-, hnodup, hmem⟩ := calc_vis fuel s t c bonus db lvls v out h
  exact ⟨hnodup.of_map, hnodup, fun p hp => (hmem p hp).2⟩

/-- C4 witness: the dedup theorem instantiated on the cross-path database
whose run charges B once and C once. -/
theorem dependency_pairs_never_charged_twice_witness :
    ([("B", 3), ("C", 2)] : List (String × Nat)).Nodup ∧
    "B-3" ∉ ([] : List String) := by
  have h := dependency_pairs_never_charged_twice 10 "A" 3 (some 1) 0
    crossSameDB [] []
    ({ individualCosts := []
       dependencyCosts := [("metal", 110), ("wood", 5)]
       totalCosts := [("metal", 110), ("wood", 5)]
       dependencies := [{ name := "B", level := 3
                          resources := [("metal", 110)], time := 0 },
                        { name := "C", level := 2
                          resources := [("wood", 5)], time := 0 }]
       individualTimes := 0
       dependencyTimes := 0
       totalTime := 0 },
     ["C-2", "B-3"], [("B", 3), ("C", 2)]) (by with_unfolding_all rfl)
  exact ⟨h.1, h.2.2 ("B", 3) (by simp)⟩

/-- A tree returned by the builder carries the requested structure name and
target level in its root node. -/
theorem buildTree_fields :
    ∀ (fuel : Nat) (s : String) (t : Nat) (c : Option Nat) (db : DB)
      (lvls : LevelMap) (bonus : ℚ) (v : List String) (tree : DepTree),
      buildDependencyTree fuel s t c db lvls bonus v = some tree →
      tree.structOf = s ∧ tree.targetLevelOf = t := by
  intro fuel s t c db lvls bonus v tree h
  match fuel with
  | 0 => simp [buildDependencyTree] at h
  | n + 1 =>
    simp only [buildDependencyTree] at h
    obtain ⟨cur, hc⟩ : ∃ cur,
        (match c with | some c0 => c0 | none => currentLevelOf lvls s) = cur :=
      ⟨_, rfl⟩
    rw [hc] at h
    split at h
    · simp only [Option.some.injEq] at h
      cases h
      exact ⟨rfl, rfl⟩
    · cases hp : processTreeLevels
          (fun s' t' c' v' =>
            buildDependencyTree n s' t' (some c') db lvls bonus v')
          db lvls bonus s (levelRange cur t) ⟨[], 0, []⟩ v with
      | none => rw [hp] at h; simp at h
      | some acc =>
        rw [hp] at h
        simp only [Option.some.injEq] at h
        cases h
        exact ⟨rfl, rfl⟩

/-- Appending a child that matches no existing sibling keeps the children
list duplicate-free. -/
theorem noDupChildren_append (l : List DepTree) (c : DepTree)
    (h1 : noDupChildren l = true)
    (h2 : l.any (fun c2 => c2.structOf == c.structOf &&
      c2.targetLevelOf == c.targetLevelOf) = false) :
    noDupChildren (l ++ [c]) = true := by
  induction l with
  | nil => rfl
  | cons x xs ih =>
    simp only [noDupChildren, Bool.and_eq_true, Bool.not_eq_true'] at h1
    simp only [List.any_cons, Bool.or_eq_false_iff] at h2
    simp only [List.cons_append, noDupChildren, Bool.and_eq_true,
      Bool.not_eq_true']
    refine ⟨?_, ih h1.2 h2.2⟩
    simp only [List.append_eq, List.any_append, Bool.or_eq_false_iff]
    refine ⟨h1.1, ?_⟩
    simp only [List.any_cons, List.any_nil, Bool.or_eq_false_iff]
    refine ⟨?_, trivial⟩
    simp only [Bool.and_eq_false_iff, beq_eq_false_iff_ne, ne_eq] at h2 ⊢
    rcases h2.1 with h | h
    · exact Or.inl (fun hh => h hh.symm)
    · exact Or.inr (fun hh => h hh.symm)

/-- `siblingDedupAll` over an appended singleton. -/
theorem siblingDedupAll_append (l : List DepTree) (c : DepTree) :
    siblingDedupAll (l ++ [c]) = (siblingDedupAll l && siblingDedup c) := by
  induction l with
  | nil =>
    rw [List.nil_append]
    conv_lhs => rw [siblingDedupAll]
    rw [Bool.and_comm]
  | cons x xs ih =>
    rw [List.cons_append, siblingDedupAll, ih]
    conv_rhs => rw [siblingDedupAll]
    rw [Bool.and_assoc]

/-- The requirement walk preserves duplicate-free, recursively deduplicated
children, given that recursive calls produce deduplicated trees with the
requested structure and target level. -/
theorem processTreeReqs_dedup (f : String → Nat → Nat → List String → Option DepTree)
    (lvls : LevelMap)
    (hf : ∀ s t c v tree, f s t c v = some tree →
      siblingDedup tree = true ∧ tree.structOf = s ∧ tree.targetLevelOf = t) :
    ∀ (reqs : List String) (acc : TreeAcc) (v : List String) (acc' : TreeAcc),
      noDupChildren acc.children = true → siblingDedupAll acc.children = true →
      processTreeReqs f lvls reqs acc v = some acc' →
      noDupChildren acc'.children = true ∧
      siblingDedupAll acc'.children = true := by
  intro reqs
  induction reqs with
  | nil =>
    intro acc v acc' h1 h2 hp
    simp only [processTreeReqs, Option.some.injEq] at hp
    cases hp
    exact ⟨h1, h2⟩
  | cons req rest ih =>
    intro acc v acc' h1 h2 hp
    simp only [processTreeReqs] at hp
    cases hq : parseRequirement req with
    | none => rw [hq] at hp; exact ih acc v acc' h1 h2 hp
    | some p =>
      rw [hq] at hp
      simp only at hp
      split at hp
      · split at hp
        · exact ih acc v acc' h1 h2 hp
        · rename_i hnodup
          cases hcall : f p.struct p.level (currentLevelOf lvls p.struct) v with
          | none => rw [hcall] at hp; simp at hp
          | some child =>
            rw [hcall] at hp
            simp only at hp
            obtain ⟨hded, hs, ht⟩ := hf _ _ _ _ _ hcall
            refine ih _ v acc' ?_ ?_ hp
            · show noDupChildren (acc.children ++ [child]) = true
              refine noDupChildren_append acc.children child h1 ?_
              rw [Bool.not_eq_true] at hnodup
              rw [hs, ht]
              exact hnodup
            · show siblingDedupAll (acc.children ++ [child]) = true
              rw [siblingDedupAll_append, h2, hded]
              rfl
      · exact ih acc v acc' h1 h2 hp

/-- The level walk preserves duplicate-free, recursively deduplicated
children. -/
theorem processTreeLevels_dedup (f : String → Nat → Nat → List String → Option DepTree)
    (db : DB) (lvls : LevelMap) (b : ℚ) (s : String)
    (hf : ∀ s t c v tree, f s t c v = some tree →
      siblingDedup tree = true ∧ tree.structOf = s ∧ tree.targetLevelOf = t) :
    ∀ (range : List Nat) (acc : TreeAcc) (v : List String) (acc' : TreeAcc),
      noDupChildren acc.children = true → siblingDedupAll acc.children = true →
      processTreeLevels f db lvls b s range acc v = some acc' →
      noDupChildren acc'.children = true ∧
      siblingDedupAll acc'.children = true := by
  intro range
  induction range with
  | nil =>
    intro acc v acc' h1 h2 hp
    simp only [processTreeLevels, Option.some.injEq] at hp
    cases hp
    exact ⟨h1, h2⟩
  | cons lvl rest ih =>
    intro acc v acc' h1 h2 hp
    simp only [processTreeLevels] at hp
    cases hdb : alookup db s with
    | none => rw [hdb] at hp; exact ih acc v acc' h1 h2 hp
    | some sd =>
      rw [hdb] at hp
      simp only at hp
      cases hlv : alookup sd.levels lvl with
      | none => rw [hlv] at hp; exact ih acc v acc' h1 h2 hp
      | some ld =>
        rw [hlv] at hp
        simp only at hp
        obtain ⟨acc2, hacc2⟩ : ∃ acc2,
            (if ld.upgrade_time ≠ 0 then
              { costs := foldCosts acc.costs ld.costs
                time := acc.time + ld.upgrade_time / (1 + b / 100)
                children := acc.children }
             else
              { acc with costs := foldCosts acc.costs ld.costs } : TreeAcc) =
            acc2 := ⟨_, rfl⟩
        have hch : acc2.children = acc.children := by
          rw [← hacc2]; split <;> rfl
        rw [hacc2] at hp
        cases hreq : processTreeReqs f lvls ld.requirements acc2 v with
        | none => rw [hreq] at hp; simp at hp
        | some acc3 =>
          rw [hreq] at hp
          simp only at hp
          have hmid := processTreeReqs_dedup f lvls hf ld.requirements acc2 v
            acc3 (by rw [hch]; exact h1) (by rw [hch]; exact h2) hreq
          exact ih acc3 v acc' hmid.1 hmid.2 hp

/-- Every tree the builder returns has duplicate-free direct children at
every node. -/
theorem buildTree_sibling_dedup :
    ∀ (fuel : Nat) (s : String) (t : Nat) (c : Option Nat) (db : DB)
      (lvls : LevelMap) (bonus : ℚ) (v : List String) (tree : DepTree),
      buildDependencyTree fuel s t c db lvls bonus v = some tree →
      siblingDedup tree = true := by
  intro fuel
  induction fuel with
  | zero => intro s t c db lvls bonus v tree h; simp [buildDependencyTree] at h
  | succ n ih =>
    intro s t c db lvls bonus v tree h
    simp only [buildDependencyTree] at h
    obtain ⟨cur, hc⟩ : ∃ cur,
        (match c with | some c0 => c0 | none => currentLevelOf lvls s) = cur :=
      ⟨_, rfl⟩
    rw [hc] at h
    split at h
    · simp only [Option.some.injEq] at h
      cases h
      rfl
    · cases hp : processTreeLevels
          (fun s' t' c' v' =>
            buildDependencyTree n s' t' (some c') db lvls bonus v')
          db lvls bonus s (levelRange cur t) ⟨[], 0, []⟩ v with
      | none => rw [hp] at h; simp at h
      | some acc =>
        rw [hp] at h
        simp only [Option.some.injEq] at h
        cases h
        have hacc := processTreeLevels_dedup _ db lvls bonus s
          (fun s' t' c' v' tree' h' =>
            ⟨ih s' t' (some c') db lvls bonus v' tree' h',
             buildTree_fields n s' t' (some c') db lvls bonus v' tree' h'⟩)
          (levelRange cur t) ⟨[], 0, []⟩ v acc rfl rfl hp
        simp only [siblingDedup, Bool.and_eq_true]
        exact ⟨hacc.1, hacc.2⟩

/-- C9: in every tree returned by buildDependencyTree, no node has two
direct children with the same (structure, targetLevel) pair — the check
scans only the current node's children list — while the same prerequisite
may appear as separate subtrees under different branches: in `forkDB`,
where B is reachable through the two distinct branches C and D, the tree
contains two separate B subtrees. -/
theorem tree_dedup_local_only :
    (∀ (fuel : Nat) (s : String) (t : Nat) (c : Option Nat) (db : DB)
        (lvls : LevelMap) (bonus : ℚ) (v : List String) (tree : DepTree),
        buildDependencyTree fuel s t c db lvls bonus v = some tree →
        siblingDedup tree = true) ∧
    (buildDependencyTree 10 "A" 2 (some 1) forkDB [] 0 []).map
        (fun tr => countStruct tr "B") = some 2 :=
  ⟨buildTree_sibling_dedup, by with_unfolding_all rfl⟩

/-- C9 witness: the sibling-dedup half applied to the concrete forkDB
tree. -/
theorem tree_dedup_local_only_witness :
    siblingDedup
      (.node "A" 1 2 [] 0
        [.node "C" 1 2 [] 0 [.node "B" 1 2 [("metal", 10)] 5 []],
         .node "D" 1 2 [] 0 [.node "B" 1 2 [("metal", 10)] 5 []]]) = true :=
  tree_dedup_local_only.1 10 "A" 2 (some 1) forkDB [] 0 []
    (.node "A" 1 2 [] 0
      [.node "C" 1 2 [] 0 [.node "B" 1 2 [("metal", 10)] 5 []],
       .node "D" 1 2 [] 0 [.node "B" 1 2 [("metal", 10)] 5 []]])
    (by with_unfolding_all rfl)

/-- A fold commutes with a function that commutes with its steps. -/
theorem foldl_hom {α β γ : Type} (h : β → α) (g1 : α → γ → α) (g2 : β → γ → β)
    (hg : ∀ b x, g1 (h b) x = h (g2 b x)) :
    ∀ (l : List γ) (b : β), l.foldl g1 (h b) = h (l.foldl g2 b) := by
  intro l
  induction l with
  | nil => intro b; rfl
  | cons x xs ih =>
    intro b
    simp only [List.foldl_cons]
    rw [hg b x, ih (g2 b x)]

/-- Scaling the zero result is the zero result. -/
theorem scaleAgg_empty (k : ℚ) : scaleAgg k emptyAgg = emptyAgg := by
  simp [scaleAgg, emptyAgg]

/-- Pass 2 at bonus p is the bonus-0 pass with every time field multiplied
by the reciprocal of the divisor 1 + p/100. -/
theorem pass2_scale (sd : StructureDef) (c t : Nat) (p : ℚ) :
    pass2 sd c t p = scaleAgg (1 + p / 100)⁻¹ (pass2 sd c t 0) := by
  unfold pass2
  conv_lhs => rw [← scaleAgg_empty (1 + p / 100)⁻¹]
  refine (foldl_hom (scaleAgg (1 + p / 100)⁻¹) _ _ ?_ _ emptyAgg)
  intro b lvl
  cases h : alookup sd.levels lvl with
  | none => simp [h]
  | some ld =>
    simp only [h]
    have hcosts : ∀ (l : Costs) (r : AggResult),
        l.foldl (fun r p =>
          { r with individualCosts := addCost r.individualCosts p.1 p.2
                   totalCosts := addCost r.totalCosts p.1 p.2 })
          (scaleAgg (1 + p / 100)⁻¹ r) =
        scaleAgg (1 + p / 100)⁻¹ (l.foldl (fun r p =>
          { r with individualCosts := addCost r.individualCosts p.1 p.2
                   totalCosts := addCost r.totalCosts p.1 p.2 }) r) := by
      intro l
      induction l with
      | nil => intro r; rfl
      | cons q qs ihq =>
        intro r
        simp only [List.foldl_cons]
        rw [show ({ scaleAgg (1 + p / 100)⁻¹ r with
            individualCosts := addCost (scaleAgg (1 + p / 100)⁻¹ r).individualCosts q.1 q.2
            totalCosts := addCost (scaleAgg (1 + p / 100)⁻¹ r).totalCosts q.1 q.2 } : AggResult) =
          scaleAgg (1 + p / 100)⁻¹
            { r with individualCosts := addCost r.individualCosts q.1 q.2
                     totalCosts := addCost r.totalCosts q.1 q.2 } from by
          cases r; rfl]
        exact ihq _
    rw [hcosts ld.costs b]
    split
    · have h0 : (1 : ℚ) + 0 / 100 = 1 := by norm_num
      simp only [scaleAgg, AggResult.mk.injEq, and_true, true_and]
      constructor
      · rw [h0, div_one, div_eq_mul_inv]
        ring
      · rw [h0, div_one, div_eq_mul_inv]
        ring
    · rfl

/-- Folding a scaled dependency result into a scaled accumulator equals
scaling the unscaled fold. -/
theorem scaleAgg_depStep (k : ℚ) (res0 dr : AggResult) (ds : String) (dl : Nat) :
    ({ scaleAgg k res0 with
       dependencyCosts :=
         foldCosts (scaleAgg k res0).dependencyCosts (scaleAgg k dr).totalCosts
       totalCosts :=
         foldCosts (scaleAgg k res0).totalCosts (scaleAgg k dr).totalCosts
       dependencyTimes :=
         (scaleAgg k res0).dependencyTimes + (scaleAgg k dr).totalTime
       totalTime := (scaleAgg k res0).totalTime + (scaleAgg k dr).totalTime
       dependencies := (scaleAgg k res0).dependencies ++
         [{ name := ds, level := dl
            resources := (scaleAgg k dr).totalCosts
            time := (scaleAgg k dr).totalTime }] } : AggResult) =
    scaleAgg k { res0 with
       dependencyCosts := foldCosts res0.dependencyCosts dr.totalCosts
       totalCosts := foldCosts res0.totalCosts dr.totalCosts
       dependencyTimes := res0.dependencyTimes + dr.totalTime
       totalTime := res0.totalTime + dr.totalTime
       dependencies := res0.dependencies ++
         [{ name := ds, level := dl
            resources := dr.totalCosts
            time := dr.totalTime }] } := by
  cases res0
  cases dr
  simp only [scaleAgg, AggResult.mk.injEq, List.map_append, List.map_cons,
    List.map_nil]
  exact ⟨trivial, trivial, trivial, trivial, trivial, by ring, by ring⟩

/-- Pass 3 commutes with time scaling when the recursive calls do. -/
theorem processDeps_scale (k : ℚ)
    (f0 fp : String → Nat → Nat → List String → Option AggOut)
    (lvls : LevelMap)
    (hf : ∀ s t c v, fp s t c v = (f0 s t c v).map (scaleOut k)) :
    ∀ (deps : List (String × Nat)) (res0 : AggResult) (vis : List String)
      (tr : List (String × Nat)),
      processDeps fp lvls deps (scaleAgg k res0) vis tr =
        (processDeps f0 lvls deps res0 vis tr).map (scaleOut k) := by
  intro deps
  induction deps with
  | nil => intro res0 vis tr; rfl
  | cons d rest ih =>
    intro res0 vis tr
    obtain ⟨ds, dl⟩ := d
    simp only [processDeps]
    split
    · split
      · exact ih res0 vis tr
      · rw [hf ds dl (currentLevelOf lvls ds) (depKey ds dl :: vis)]
        cases h0 : f0 ds dl (currentLevelOf lvls ds) (depKey ds dl :: vis) with
        | none => rfl
        | some depOut =>
          obtain ⟨dr, v', dt⟩ := depOut
          simp only [Option.map_some', scaleOut]
          rw [scaleAgg_depStep k res0 dr ds dl]
          exact ih _ v' _
    · exact ih res0 vis tr

/-- The aggregator at bonus p is the bonus-0 aggregator with every time
field (including the times inside dependencies) multiplied by
(1 + p/100)⁻¹; costs, visited set and trace are unchanged. -/
theorem calc_scale :
    ∀ (fuel : Nat) (s : String) (t : Nat) (c : Option Nat) (bonus : ℚ)
      (db : DB) (lvls : LevelMap) (v : List String),
      calculateResourcesRecursive fuel s t c bonus db lvls v =
        (calculateResourcesRecursive fuel s t c 0 db lvls v).map
          (scaleOut (1 + bonus / 100)⁻¹) := by
  intro fuel
  induction fuel with
  | zero => intro s t c bonus db lvls v; rfl
  | succ n ih =>
    intro s t c bonus db lvls v
    simp only [calculateResourcesRecursive]
    set cur := (match c with | some c0 => c0 | none => currentLevelOf lvls s)
      with hc
    cases hdb : alookup db s with
    | none =>
      simp only [Option.map_some', scaleOut, scaleAgg_empty]
    | some sd =>
      simp only
      split
      · simp only [Option.map_some', scaleOut, scaleAgg_empty]
      · rw [pass2_scale sd cur t bonus]
        exact processDeps_scale (1 + bonus / 100)⁻¹ _ _ lvls
          (fun s' t' c' v' => ih s' t' (some c') bonus db lvls v')
          (collectAllDeps sd cur t) (pass2 sd cur t 0) v []

/-- A successful association-list lookup is a membership. -/
theorem alookup_mem {α β : Type} [DecidableEq α] :
    ∀ (m : List (α × β)) (k : α) (b : β), alookup m k = some b → (k, b) ∈ m := by
  intro m
  induction m with
  | nil => intro k b h; simp [alookup] at h
  | cons p t ih =>
    intro k b h
    simp only [alookup] at h
    split at h
    · simp only [Option.some.injEq] at h
      subst h
      rename_i heq
      subst heq
      exact List.mem_cons_self _ _
    · exact List.mem_cons_of_mem _ (ih k b h)

/-- The cost-accumulation fold leaves every time field unchanged. -/
theorem costsFoldl_times (l : Costs) :
    ∀ (r : AggResult),
      ((l.foldl (fun r p =>
        { r with individualCosts := addCost r.individualCosts p.1 p.2
                 totalCosts := addCost r.totalCosts p.1 p.2 }) r).individualTimes =
        r.individualTimes) ∧
      ((l.foldl (fun r p =>
        { r with individualCosts := addCost r.individualCosts p.1 p.2
                 totalCosts := addCost r.totalCosts p.1 p.2 }) r).dependencyTimes =
        r.dependencyTimes) ∧
      ((l.foldl (fun r p =>
        { r with individualCosts := addCost r.individualCosts p.1 p.2
                 totalCosts := addCost r.totalCosts p.1 p.2 }) r).totalTime =
        r.totalTime) := by
  induction l with
  | nil => intro r; exact ⟨rfl, rfl, rfl⟩
  | cons q qs ih => intro r; exact ih _

/-- With non-negative upgrade times, pass 2 at bonus 0 produces
non-negative time fields. -/
theorem pass2_times_nonneg (sd : StructureDef) (c t : Nat)
    (hsd : ∀ le ∈ sd.levels, 0 ≤ le.2.upgrade_time) :
    0 ≤ (pass2 sd c t 0).individualTimes ∧
    0 ≤ (pass2 sd c t 0).dependencyTimes ∧
    0 ≤ (pass2 sd c t 0).totalTime := by
  unfold pass2
  refine foldl_inv
    (fun r : AggResult => 0 ≤ r.individualTimes ∧ 0 ≤ r.dependencyTimes ∧
      0 ≤ r.totalTime) _ ?_ _ emptyAgg ⟨le_refl 0, le_refl 0, le_refl 0⟩
  intro r lvl hr
  cases h : alookup sd.levels lvl with
  | none => simpa [h] using hr
  | some ld =>
    simp only [h]
    obtain ⟨hiT, hdT, htT⟩ := costsFoldl_times ld.costs r
    have hut : 0 ≤ ld.upgrade_time :=
      hsd (lvl, ld) (alookup_mem sd.levels lvl ld h)
    have hdiv : 0 ≤ ld.upgrade_time / (1 + (0:ℚ) / 100) := by
      have h1 : (1 : ℚ) + 0 / 100 = 1 := by norm_num
      rw [h1, div_one]
      exact hut
    split
    · exact ⟨by rw [hiT] at *; exact add_nonneg hr.1 hdiv,
        by rw [hdT]; exact hr.2.1,
        by rw [htT]; exact add_nonneg hr.2.2 hdiv⟩
    · exact ⟨by rw [hiT]; exact hr.1, by rw [hdT]; exact hr.2.1,
        by rw [htT]; exact hr.2.2⟩

/-- Pass 3 preserves non-negative time fields when recursive calls return
non-negative total times. -/
theorem processDeps_time_nonneg
    (f : String → Nat → Nat → List String → Option AggOut) (lvls : LevelMap)
    (hf : ∀ s t c v out, f s t c v = some out → 0 ≤ out.1.totalTime) :
    ∀ (deps : List (String × Nat)) (res : AggResult) (vis : List String)
      (tr : List (String × Nat)) (out : AggOut),
      0 ≤ res.individualTimes → 0 ≤ res.dependencyTimes → 0 ≤ res.totalTime →
      processDeps f lvls deps res vis tr = some out →
      0 ≤ out.1.individualTimes ∧ 0 ≤ out.1.dependencyTimes ∧
      0 ≤ out.1.totalTime := by
  intro deps
  induction deps with
  | nil =>
    intro res vis tr out h1 h2 h3 hp
    simp only [processDeps, Option.some.injEq] at hp
    cases hp
    exact ⟨h1, h2, h3⟩
  | cons d rest ih =>
    intro res vis tr out h1 h2 h3 hp
    obtain ⟨ds, dl⟩ := d
    simp only [processDeps] at hp
    split at hp
    · split at hp
      · exact ih res vis tr out h1 h2 h3 hp
      · cases hf0 : f ds dl (currentLevelOf lvls ds) (depKey ds dl :: vis) with
        | none => rw [hf0] at hp; simp at hp
        | some depOut =>
          obtain ⟨dr, v', dt⟩ := depOut
          rw [hf0] at hp
          simp only at hp
          have hdr := hf _ _ _ _ _ hf0
          refine ih _ _ _ _ ?_ ?_ ?_ hp
          · exact h1
          · exact add_nonneg h2 hdr
          · exact add_nonneg h3 hdr
    · exact ih res vis tr out h1 h2 h3 hp

/-- Over a database with non-negative upgrade times, every time field of a
bonus-0 aggregation is non-negative. -/
theorem calc_time_nonneg :
    ∀ (fuel : Nat) (s : String) (t : Nat) (c : Option Nat) (db : DB)
      (lvls : LevelMap) (v : List String) (out : AggOut),
      DBTimesNonneg db →
      calculateResourcesRecursive fuel s t c 0 db lvls v = some out →
      0 ≤ out.1.individualTimes ∧ 0 ≤ out.1.dependencyTimes ∧
      0 ≤ out.1.totalTime := by
  intro fuel
  induction fuel with
  | zero =>
    intro s t c db lvls v out hdbn h
    simp [calculateResourcesRecursive] at h
  | succ n ih =>
    intro s t c db lvls v out hdbn h
    simp only [calculateResourcesRecursive] at h
    obtain ⟨cur, hc⟩ : ∃ cur,
        (match c with | some c0 => c0 | none => currentLevelOf lvls s) = cur :=
      ⟨_, rfl⟩
    rw [hc] at h
    cases hdb : alookup db s with
    | none =>
      rw [hdb] at h
      simp only [Option.some.injEq] at h
      cases h
      exact ⟨le_refl 0, le_refl 0, le_refl 0⟩
    | some sd =>
      rw [hdb] at h
      simp only at h
      split at h
      · simp only [Option.some.injEq] at h
        cases h
        exact ⟨le_refl 0, le_refl 0, le_refl 0⟩
      · have hsd : ∀ le ∈ sd.levels, 0 ≤ le.2.upgrade_time :=
          hdbn (s, sd) (alookup_mem db s sd hdb)
        have hinit := pass2_times_nonneg sd cur t hsd
        exact processDeps_time_nonneg _ lvls
          (fun s' t' c' v' out' h' =>
            (ih s' t' (some c') db lvls v' out' hdbn h').2.2)
          _ _ v [] out hinit.1 hinit.2.1 hinit.2.2 h

/-- C6 amended: each accumulated level's upgrade_time is divided by
1 + speedBonusPercent/100 before summation; for every database conforming
to the data model (non-negative upgrade times) and any two bonuses
p₁ ≤ p₂ with p₁ > -100 (in particular all non-negative bonuses), every
time field of the result at p₂ is at most the corresponding field at p₁,
while all cost maps (individualCosts, dependencyCosts, totalCosts) are
identical for every value of the bonus. -/
theorem speed_bonus_monotonicity_amended :
    ∀ (fuel : Nat) (s : String) (t : Nat) (c : Option Nat) (db : DB)
      (lvls : LevelMap) (v : List String) (p₁ p₂ : ℚ),
      DBTimesNonneg db → -100 < p₁ → p₁ ≤ p₂ →
      ((calculateResourcesRecursive fuel s t c p₁ db lvls v).map costsView =
        (calculateResourcesRecursive fuel s t c p₂ db lvls v).map costsView) ∧
      (∀ out₁ out₂,
        calculateResourcesRecursive fuel s t c p₁ db lvls v = some out₁ →
        calculateResourcesRecursive fuel s t c p₂ db lvls v = some out₂ →
        out₂.1.individualTimes ≤ out₁.1.individualTimes ∧
        out₂.1.dependencyTimes ≤ out₁.1.dependencyTimes ∧
        out₂.1.totalTime ≤ out₁.1.totalTime) := by
  intro fuel s t c db lvls v p₁ p₂ hdbn hp1 hp12
  have hd1 : (0 : ℚ) < 1 + p₁ / 100 := by
    have h100 : (0 : ℚ) < 100 + p₁ := by linarith
    have : (0 : ℚ) < (100 + p₁) / 100 := by positivity
    calc (0 : ℚ) < (100 + p₁) / 100 := this
    _ = 1 + p₁ / 100 := by ring
  have hdle : 1 + p₁ / 100 ≤ 1 + p₂ / 100 := by linarith
  have hk : (1 + p₂ / 100)⁻¹ ≤ (1 + p₁ / 100)⁻¹ := inv_anti₀ hd1 hdle
  rw [calc_scale fuel s t c p₁ db lvls v, calc_scale fuel s t c p₂ db lvls v]
  cases h0 : calculateResourcesRecursive fuel s t c 0 db lvls v with
  | none =>
    refine ⟨rfl, ?_⟩
    intro out₁ out₂ h₁ h₂
    simp at h₁
  | some o0 =>
    have hT := calc_time_nonneg fuel s t c db lvls v o0 hdbn h0
    refine ⟨rfl, ?_⟩
    intro out₁ out₂ h₁ h₂
    simp only [Option.map_some', Option.some.injEq] at h₁ h₂
    subst h₁
    subst h₂
    refine ⟨?_, ?_, ?_⟩
    · exact mul_le_mul_of_nonneg_left hk hT.1
    · exact mul_le_mul_of_nonneg_left hk hT.2.1
    · exact mul_le_mul_of_nonneg_left hk hT.2.2

/-- C6 witness: the amended monotonicity theorem instantiated at bonuses 0
and 50 on the 60-second structure. -/
theorem speed_bonus_monotonicity_amended_witness :
    ((40 : ℚ) ≤ 60) ∧
    ((calculateResourcesRecursive 2 "S" 2 (some 1) 0 timeDB [] []).map costsView =
      (calculateResourcesRecursive 2 "S" 2 (some 1) 50 timeDB [] []).map costsView) := by
  have h := speed_bonus_monotonicity_amended 2 "S" 2 (some 1) timeDB [] [] 0 50
    (by with_unfolding_all decide) (by norm_num) (by norm_num)
  refine ⟨?_, h.1⟩
  have h2 := h.2
    ({ individualCosts := [], dependencyCosts := [], totalCosts := []
       dependencies := [], individualTimes := 60, dependencyTimes := 0
       totalTime := 60 }, [], [])
    ({ individualCosts := [], dependencyCosts := [], totalCosts := []
       dependencies := [], individualTimes := 40, dependencyTimes := 0
       totalTime := 40 }, [], [])
    (by with_unfolding_all rfl) (by with_unfolding_all rfl)
  exact h2.2.2

/-- A successful literal match splits the input. -/
theorem stripChars_sound :
    ∀ (pre cs rest : List Char), stripChars pre cs = some rest →
      cs = pre ++ rest := by
  intro pre
  induction pre with
  | nil =>
    intro cs rest h
    simp only [stripChars, Option.some.injEq] at h
    simp [h]
  | cons p ps ih =>
    intro cs rest h
    cases cs with
    | nil => simp [stripChars] at h
    | cons c cs' =>
      simp only [stripChars] at h
      split at h
      · rename_i hc
        subst hc
        simp [ih cs' rest h]
      · simp at h

/-- A successful whitespace backtrack splits the run into a nonempty
consumed part and a nonempty remainder whose dot-prefix is the capture. -/
theorem pickBack_sound :
    ∀ (w cap : List Char), pickBack w = some cap →
      ∃ w₁ w₂, w = w₁ ++ w₂ ∧ w₁ ≠ [] ∧ w₂ ≠ [] ∧
        cap = w₂.takeWhile jsDot ∧ cap ≠ [] := by
  intro w
  induction w with
  | nil => intro cap h; simp [pickBack] at h
  | cons x rest ih =>
    intro cap h
    cases rest with
    | nil => simp [pickBack] at h
    | cons y rest2 =>
      simp only [pickBack] at h
      cases hrec : pickBack (y :: rest2) with
      | some cap' =>
        rw [hrec] at h
        simp only [Option.some.injEq] at h
        subst h
        obtain ⟨w₁, w₂, heq, hw1, hw2, hcap, hne⟩ := ih cap' hrec
        exact ⟨x :: w₁, w₂, by rw [List.cons_append, heq],
          List.cons_ne_nil x w₁, hw2, hcap, hne⟩
      | none =>
        rw [hrec] at h
        simp only at h
        split at h
        · rename_i hdot
          simp only [Option.some.injEq] at h
          subst h
          refine ⟨[x], y :: rest2, rfl, List.cons_ne_nil x [],
            List.cons_ne_nil y rest2, rfl, ?_⟩
          rw [List.takeWhile_cons_of_pos hdot]
          exact List.cons_ne_nil _ _
        · simp at h

/-- The first element surviving a dropWhile falsifies the predicate. -/
theorem dropWhile_head_false {α : Type} (p : α → Bool) :
    ∀ (l : List α) (c : α) (rest : List α),
      l.dropWhile p = c :: rest → p c = false := by
  intro l
  induction l with
  | nil => intro c rest h; simp [List.dropWhile] at h
  | cons x xs ih =>
    intro c rest h
    rw [List.dropWhile_cons] at h
    split at h
    · exact ih c rest h
    · rename_i hpx
      cases h
      simpa using hpx

/-- Every non-whitespace character matches the regex dot (all four line
terminators are whitespace). -/
theorem nonws_isDot (c : Char) (h : jsWhitespace c = false) : jsDot c = true := by
  simp only [jsWhitespace, Bool.or_eq_false_iff, decide_eq_false_iff_not] at h
  simp only [jsDot, Bool.not_eq_true', Bool.or_eq_false_iff,
    decide_eq_false_iff_not]
  tauto

/-- A successful match at a position decomposes the input there into the
literal, a nonempty digit run, a nonempty whitespace run, the captured
name (nonempty, free of line terminators) and a remainder, with the level
being the digits' value. -/
theorem matchAt_sound (cs : List Char) (n : Nat) (name : String)
    (h : matchAt cs = some (n, name)) :
    ∃ ds w suffix,
      cs = "Level ".data ++ ds ++ w ++ name.data ++ suffix ∧
      ds ≠ [] ∧ ds.all isDigitChar = true ∧ w ≠ [] ∧
      w.all jsWhitespace = true ∧ name.data ≠ [] ∧
      name.data.all jsDot = true ∧ n = natOfDigits ds := by
  unfold matchAt at h
  cases hstrip : stripChars "Level ".data cs with
  | none => rw [hstrip] at h; simp at h
  | some rest =>
    rw [hstrip] at h
    simp only at h
    have hcs := stripChars_sound _ _ _ hstrip
    have hrest := List.takeWhile_append_dropWhile isDigitChar rest
    have hafter :=
      List.takeWhile_append_dropWhile jsWhitespace (rest.dropWhile isDigitChar)
    split at h
    · simp at h
    · rename_i hds
      split at h
      · simp at h
      · rename_i hw
        split at h
        · rename_i ht
          cases hpb : pickBack ((rest.dropWhile isDigitChar).takeWhile jsWhitespace) with
          | none => rw [hpb] at h; simp at h
          | some cap =>
            rw [hpb] at h
            simp only [Option.some.injEq, Prod.mk.injEq] at h
            obtain ⟨hn, hname⟩ := h
            obtain ⟨w₁, w₂, heqW, hw1, hw2, hcap, hcapne⟩ :=
              pickBack_sound _ cap hpb
            have hnd : name.data = cap := by rw [← hname]
            have hA : rest.dropWhile isDigitChar = w₁ ++ w₂ := by
              rw [← hafter, ht, List.append_nil, heqW]
            have hsplit : w₂ = name.data ++ w₂.dropWhile jsDot := by
              rw [hnd, hcap]
              exact (List.takeWhile_append_dropWhile jsDot w₂).symm
            refine ⟨rest.takeWhile isDigitChar, w₁, w₂.dropWhile jsDot, ?_,
              hds, List.all_takeWhile, hw1, ?_, ?_, ?_, hn.symm⟩
            · calc cs = "Level ".data ++ rest := hcs
                _ = "Level ".data ++
                    (rest.takeWhile isDigitChar ++ rest.dropWhile isDigitChar) := by
                  rw [hrest]
                _ = "Level ".data ++
                    (rest.takeWhile isDigitChar ++ (w₁ ++ w₂)) := by rw [hA]
                _ = "Level ".data ++ (rest.takeWhile isDigitChar ++
                    (w₁ ++ (name.data ++ w₂.dropWhile jsDot))) := by
                  conv_lhs => rw [hsplit]
                _ = "Level ".data ++ rest.takeWhile isDigitChar ++ w₁ ++
                    name.data ++ w₂.dropWhile jsDot := by
                  simp [List.append_assoc]
            · have hWall : (((rest.dropWhile isDigitChar).takeWhile
                  jsWhitespace)).all jsWhitespace = true := List.all_takeWhile
              rw [heqW, List.all_append, Bool.and_eq_true] at hWall
              exact hWall.1
            · rw [hnd]; exact hcapne
            · rw [hnd, hcap]; exact List.all_takeWhile
        · rename_i ht
          simp only [Option.some.injEq, Prod.mk.injEq] at h
          obtain ⟨hn, hname⟩ := h
          have hnd : name.data =
              ((rest.dropWhile isDigitChar).dropWhile jsWhitespace).takeWhile
                jsDot := by rw [← hname]
          have hsplitT : (rest.dropWhile isDigitChar).dropWhile jsWhitespace =
              name.data ++
              (((rest.dropWhile isDigitChar).dropWhile jsWhitespace).dropWhile
                jsDot) := by
            rw [hnd]
            exact (List.takeWhile_append_dropWhile jsDot _).symm
          refine ⟨rest.takeWhile isDigitChar,
            (rest.dropWhile isDigitChar).takeWhile jsWhitespace,
            ((rest.dropWhile isDigitChar).dropWhile jsWhitespace).dropWhile jsDot,
            ?_, hds, List.all_takeWhile, hw, List.all_takeWhile, ?_, ?_,
            hn.symm⟩
          · calc cs = "Level ".data ++ rest := hcs
              _ = "Level ".data ++
                  (rest.takeWhile isDigitChar ++ rest.dropWhile isDigitChar) := by
                rw [hrest]
              _ = "Level ".data ++ (rest.takeWhile isDigitChar ++
                  ((rest.dropWhile isDigitChar).takeWhile jsWhitespace ++
                   (rest.dropWhile isDigitChar).dropWhile jsWhitespace)) := by
                rw [hafter]
              _ = "Level ".data ++ (rest.takeWhile isDigitChar ++
                  ((rest.dropWhile isDigitChar).takeWhile jsWhitespace ++
                   (name.data ++
                    (((rest.dropWhile isDigitChar).dropWhile
                      jsWhitespace).dropWhile jsDot)))) := by
                conv_lhs => rw [hsplitT]
              _ = "Level ".data ++ rest.takeWhile isDigitChar ++
                  (rest.dropWhile isDigitChar).takeWhile jsWhitespace ++
                  name.data ++
                  (((rest.dropWhile isDigitChar).dropWhile
                    jsWhitespace).dropWhile jsDot) := by
                simp [List.append_assoc]
          · cases hT : (rest.dropWhile isDigitChar).dropWhile jsWhitespace with
            | nil => exact absurd hT ht
            | cons c T' =>
              have hcws : jsWhitespace c = false :=
                dropWhile_head_false jsWhitespace _ c T' hT
              have hcdot : jsDot c = true := nonws_isDot c hcws
              rw [hnd, hT, List.takeWhile_cons_of_pos hcdot]
              exact List.cons_ne_nil _ _
          · rw [hnd]
            exact List.all_takeWhile

/-- A successful unanchored search succeeds at some position. -/
theorem findMatch_sound :
    ∀ (cs : List Char) (n : Nat) (name : String),
      findMatch cs = some (n, name) →
      ∃ pre rest, cs = pre ++ rest ∧ matchAt rest = some (n, name) := by
  intro cs
  induction cs with
  | nil => intro n name h; simp [findMatch] at h
  | cons c cs' ih =>
    intro n name h
    simp only [findMatch] at h
    cases hm : matchAt (c :: cs') with
    | some p =>
      rw [hm] at h
      simp only [Option.some.injEq] at h
      subst h
      exact ⟨[], c :: cs', rfl, hm⟩
    | none =>
      rw [hm] at h
      obtain ⟨pre, rest, heq, hmr⟩ := ih n name h
      exact ⟨c :: pre, rest, by rw [List.cons_append, heq], hmr⟩

/-- C8 amended: parseRequirement returns a pair only when the input
contains — anywhere, not necessarily at the start — the text "Level "
followed by one or more digits, one or more whitespace characters, and the
returned structure name: a nonempty run of non-line-terminator characters
taken verbatim (the name stops at a newline rather than running to the end
of the string), the level being the numeric value of the digits; the
claim's three examples hold as stated. -/
theorem parseRequirement_sound_amended :
    (∀ (s : String) (r : Req), parseRequirement s = some r → MatchDecomp s r) ∧
    parseRequirement "Level 5 Barracks" = some ⟨"Barracks", 5⟩ ∧
    parseRequirement "Barracks Level 5" = none ∧
    parseRequirement "garbage" = none := by
  refine ⟨?_, rfl, rfl, rfl⟩
  intro s r h
  unfold parseRequirement at h
  cases hf : findMatch s.data with
  | none => rw [hf] at h; simp at h
  | some p =>
    obtain ⟨n, name⟩ := p
    rw [hf] at h
    simp only [Option.some.injEq] at h
    subst h
    obtain ⟨pre, rest, hcs, hm⟩ := findMatch_sound s.data n name hf
    obtain ⟨ds, w, suffix, hdec, hds, hdall, hw, hwall, hname, hnall, hn⟩ :=
      matchAt_sound rest n name hm
    refine ⟨pre, ds, w, suffix, ?_, hds, hdall, hw, hwall, hname, hnall, hn⟩
    rw [hcs, hdec]
    simp [List.append_assoc]

/-- C8 witness: the soundness half applied to the canonical example. -/
theorem parseRequirement_sound_amended_witness :
    MatchDecomp "Level 5 Barracks" ⟨"Barracks", 5⟩ :=
  parseRequirement_sound_amended.1 "Level 5 Barracks" ⟨"Barracks", 5⟩ rfl
